import Mathlib

/-!
Verification of the task_sched schedulability analyses and simulator.

This file gives a shallow embedding in Lean 4 of the core of the
`task_sched` repository:

* `src/rate_monotonic.py` — the `Task` constructor, the utilization-bound
  test `rate_monotonic_check`, the iterative response-time analysis
  `response_time_analysis`, and the deadline-based single-pass test
  `rate_monotonic_check_1`;
* `src/task_schedule_visualizer.py` — the discrete-time preemptive
  scheduling simulator `_generate_schedule_data`.

Python integers are modelled as `ℤ`; `np.ceil` of an integer quotient is
modelled as the exact ceiling `⌈(a : ℚ) / b⌉` (the Python code computes it
in floating point, which agrees with the exact ceiling on the integer
ranges at issue); Python's stable `sort`/`sorted` is modelled by
`List.insertionSort` with a non-strict key comparison, which is stable;
the unbounded `while True` loop of the response-time iteration is modelled
with explicit fuel (`none` = fuel exhausted), and the termination theorem
exhibits a concrete fuel bound that always suffices.
-/

namespace TaskSched

/-- The `Task` record of `rate_monotonic.py`: period, worst-case execution
time, relative deadline and an optional stored priority.  Fields are `ℤ`
because the Python constructor accepts arbitrary integers. -/
structure Task where
  period : ℤ
  execution_time : ℤ
  deadline : ℤ
  priority : Option ℤ
deriving DecidableEq

/-- Model of `Task.__init__(self, period, execution_time, deadline=None, priority=None)`:
it stores the given values without any validation; the deadline defaults to
the period when the `deadline` argument is falsy (`None` or `0`). -/
def Task.init (period execution_time : ℤ) (deadline priority : Option ℤ) : Task :=
  { period := period
    execution_time := execution_time
    deadline := match deadline with
      | none => period
      | some d => if d = 0 then period else d
    priority := priority }

/-- Model of `np.ceil(a / b)` for integers `a`, `b`: the exact ceiling of the
rational quotient, written as `-⌊-a / b⌋` with flooring integer division so
that it evaluates inside the kernel.  `ceilq_eq_ceil` below proves it equal
to `⌈(a : ℚ) / b⌉` for every positive divisor. -/
def ceilq (a b : ℤ) : ℤ := -((-a).fdiv b)

/-- The interference term of `response_time_analysis` (and, with `r` the
deadline, of `rate_monotonic_check_1`):
`Σ_{h ∈ prior} ceil(r / T_h) · C_h`. -/
def interference (prior : List Task) (r : ℤ) : ℤ :=
  (prior.map (fun t => ceilq r t.period * t.execution_time)).sum

/-- The `while True` loop of `response_time_analysis` for one task with
execution time `C` and deadline `D`, given the list `prior` of
higher-priority tasks.  `fuel` bounds the number of iterations; the result
is `none` when fuel runs out, `some none` when the iteration exceeded the
deadline (the Python code returns `float('inf')`), and `some (some r)` when
it converged to the response time `r`. -/
def rtaLoop (prior : List Task) (C D : ℤ) : ℕ → ℤ → Option (Option ℤ)
  | 0, _ => none
  | fuel + 1, rOld =>
    let rNew := C + interference prior rOld
    if D < rNew then some none
    else if rNew = rOld then some (some rNew)
    else rtaLoop prior C D fuel rNew

/-- The main loop of `response_time_analysis`: processes `rest` in order,
with `prior` the already-processed (higher-priority) tasks and `rts` the
response times collected so far.  On divergence of the current task the
Python code executes `return False, response_times + [float('inf')]`, i.e.
it appends a single `∞` entry and stops. -/
def rtaGo (fuel : ℕ) : List Task → List Task → List (Option ℤ) →
    Option (Bool × List (Option ℤ))
  | _, [], rts => some (true, rts)
  | prior, t :: rest, rts =>
    match rtaLoop prior t.execution_time t.deadline fuel t.execution_time with
    | none => none
    | some none => some (false, rts ++ [none])
    | some (some r) => rtaGo fuel (prior ++ [t]) rest (rts ++ [some r])

/-- Model of `response_time_analysis(tasks)` of `rate_monotonic.py` (tasks must
already be ordered by descending priority).  In the response-time list,
`none` stands for the Python `float('inf')`. -/
def response_time_analysis (tasks : List Task) (fuel : ℕ) :
    Option (Bool × List (Option ℤ)) :=
  rtaGo fuel [] tasks []

/-- The utilization sum of `rate_monotonic_check`:
`sum(task.execution_time / task.deadline for task in task_set)` — note the
denominator is the deadline, not the period. -/
def utilization (ts : List Task) : ℚ :=
  (ts.map (fun t => (t.execution_time : ℚ) / (t.deadline : ℚ))).sum

/-- Model of `rate_monotonic_check(task_set)` of `rate_monotonic.py`: schedulable iff
the utilization is at most the Liu–Layland bound `n·(2^(1/n) − 1)`. -/
def rate_monotonic_check (ts : List Task) : Prop :=
  (utilization ts : ℝ) ≤
    (ts.length : ℝ) * ((2 : ℝ) ^ ((1 : ℝ) / (ts.length : ℝ)) - 1)

/-- Runtime errors of the Python implementation that the embedding makes
explicit.  `zeroDivision` models Python's `ZeroDivisionError`; `emptyInput`
models the distinct "empty input" error condition that the specification
demands for the utilization-bound test (the code has no such condition; the
constructor exists so that the two conditions can be told apart). -/
inductive PyErr where
  | zeroDivision
  | emptyInput
deriving DecidableEq

/-- Model of `rate_monotonic_check` with Python's failure behaviour made explicit:
the per-task divisions `C / D` are evaluated first (raising
`ZeroDivisionError` on a zero deadline), then the bound computes `1 / n`,
which raises `ZeroDivisionError` when the task set is empty.  No
distinct empty-input check exists in the code. -/
def rate_monotonic_check_run (ts : List Task) : Except PyErr Prop :=
  if ts.any (fun t => t.deadline = 0) then .error .zeroDivision
  else if ts.length = 0 then .error .zeroDivision
  else .ok (rate_monotonic_check ts)

/-- The single pass of `rate_monotonic_check_1` over the period-sorted task
list: for each task, `R_i = C_i + Σ_{h<i} ceil(D_i / T_h) · C_h`. -/
def rm1Go : List Task → List Task → List ℤ
  | _, [] => []
  | prior, t :: rest =>
    (t.execution_time + interference prior t.deadline) :: rm1Go (prior ++ [t]) rest

/-- Model of `sorted(task_set, key=lambda x: x.period)` — Python's stable sort by
ascending period. -/
def sortByPeriod (ts : List Task) : List Task :=
  List.insertionSort (fun a b => a.period ≤ b.period) ts

/-- Model of `rate_monotonic_check_1(task_set)` of `rate_monotonic.py`: sort by
period, compute each `R_i` in one pass, and report schedulable iff no task
has `R_i > D_i`. -/
def rate_monotonic_check_1 (ts : List Task) : Bool :=
  let sorted := sortByPeriod ts
  ((sorted.zip (rm1Go [] sorted)).all (fun p => p.2 ≤ p.1.deadline))

end TaskSched

namespace TaskSched

/-- The scheduling policy selector of `_generate_schedule_data`:
`'DM'` (Deadline Monotonic) or `'RM'` (Rate Monotonic). -/
inductive Alg where
  | DM
  | RM
deriving DecidableEq

/-- The priority key used by `_generate_schedule_data`'s sorts: the deadline
under Deadline Monotonic, the period under Rate Monotonic (shorter value =
higher priority). -/
def key (alg : Alg) (t : Task) : ℤ :=
  match alg with
  | .DM => t.deadline
  | .RM => t.period

/-- One entry of the simulator's `active_tasks` list: a released task
instance.  `idx` is the position of the task in the original input list
(Python distinguishes the instances of equal-valued tasks through object
identity; the index plays that role here). -/
structure Inst where
  idx : ℕ
  task : Task
  remaining : ℤ
  release_time : ℕ
  absolute_deadline : ℤ
deriving DecidableEq

/-- Model of `sorted(tasks, key=...)` / `active_tasks.sort(key=...)`: Python's sort
is stable, which `List.insertionSort` with the non-strict key comparison
reproduces exactly. -/
def sortTasks (alg : Alg) (ts : List (ℕ × Task)) : List (ℕ × Task) :=
  List.insertionSort (fun a b => key alg a.2 ≤ key alg b.2) ts

/-- The release phase at time `t`: every task with `t % period == 0` gets a
fresh instance with full remaining execution and
`absolute_deadline = t + deadline`, appended in the order of the
priority-sorted task list (as the Python loop does). -/
def release (tasksSorted : List (ℕ × Task)) (t : ℕ) : List Inst :=
  (tasksSorted.filter (fun p => (t : ℤ) % p.2.period = 0)).map
    (fun p => ⟨p.1, p.2, p.2.execution_time, t, (t : ℤ) + p.2.deadline⟩)

/-- Model of `active_tasks.sort(key=...)` on instances. -/
def sortInsts (alg : Alg) (l : List Inst) : List Inst :=
  List.insertionSort (fun a b => key alg a.task ≤ key alg b.task) l

/-- The simulator state after some number of time units.  `timeline` holds
`execution_timeline` (the executing task's input index, `none` = idle),
`violations` holds `deadline_violations`; `selected` and `readys` record,
for each time unit, the executing instance and the sorted ready list the
simulator chose it from (internal values of the loop body, exposed so the
selection can be reasoned about). -/
structure SimState where
  active : List Inst
  timeline : List (Option ℕ)
  violations : List Bool
  selected : List (Option Inst)
  readys : List (List Inst)
deriving DecidableEq

/-- The execute phase of the simulation loop: given the sorted ready list,
run the head instance for one unit (recording a violation iff
`t >= absolute_deadline`) and decrement its remaining execution; when no
instance is ready, record an idle unit. -/
def execPhase (t : ℕ) (st : SimState) : List Inst → SimState
  | [] =>
    ⟨[], st.timeline ++ [none], st.violations ++ [false],
      st.selected ++ [none], st.readys ++ [[]]⟩
  | e :: rest =>
    ⟨{ e with remaining := e.remaining - 1 } :: rest,
      st.timeline ++ [some e.idx],
      st.violations ++ [decide (e.absolute_deadline ≤ (t : ℤ))],
      st.selected ++ [some e], st.readys ++ [e :: rest]⟩

/-- One iteration of the simulation loop of `_generate_schedule_data` at
time `t`: release new instances, drop completed ones, sort by the priority
key, then execute the head instance. -/
def simStep (alg : Alg) (tasksSorted : List (ℕ × Task)) (t : ℕ) (st : SimState) :
    SimState :=
  execPhase t st
    (sortInsts alg ((st.active ++ release tasksSorted t).filter
      (fun i => 0 < i.remaining)))

/-- Run the simulation loop for time units `0, 1, …, n-1`. -/
def simRun (alg : Alg) (tasksSorted : List (ℕ × Task)) : ℕ → SimState
  | 0 => ⟨[], [], [], [], []⟩
  | n + 1 => simStep alg tasksSorted n (simRun alg tasksSorted n)

/-- Model of `np.lcm.reduce([task.period for task in tasks])` (for the positive
periods the simulator is used with). -/
def hyperperiod (tasks : List Task) : ℕ :=
  tasks.foldr (fun t acc => Int.lcm t.period (acc : ℤ)) 1

/-- Model of `time_range = lcm * lcm_cycles`. -/
def time_range (tasks : List Task) (cycles : ℕ) : ℕ :=
  hyperperiod tasks * cycles

/-- The scheduling core of `_generate_schedule_data(tasks, lcm_cycles,
algorithm)`: sort the tasks by the active policy's key and simulate
`time_range` units.  (The color palette, plot title and tick-mark sets the
Python function also returns belong to the rendering layer and carry no
scheduling content.) -/
def generate_schedule_data (tasks : List Task) (cycles : ℕ) (alg : Alg) : SimState :=
  simRun alg (sortTasks alg tasks.enum) (time_range tasks cycles)

/-- Lemma: `ceilq` computes the exact rational ceiling for a positive divisor,
matching `np.ceil(a / b)` on integers. -/
theorem ceilq_eq_ceil (a : ℤ) {b : ℤ} (hb : 0 < b) : ceilq a b = ⌈(a : ℚ) / b⌉ := by
  have h1 : ⌈(a : ℚ) / b⌉ = -⌊-((a : ℚ) / b)⌋ := by
    rw [Int.floor_neg, neg_neg]
  have hcast : (b : ℚ) = ((b.toNat : ℕ) : ℚ) := by
    exact_mod_cast congrArg (fun z : ℤ => (z : ℚ)) (Int.toNat_of_nonneg hb.le).symm
  rw [ceilq, h1, ← neg_div, ← Int.cast_neg, hcast, Rat.floor_intCast_div_natCast,
    Int.toNat_of_nonneg hb.le, Int.fdiv_eq_ediv _ hb.le]

end TaskSched

namespace TaskSched

/-- The concrete task set of scenario A, already sorted by ascending period
(Rate-Monotonic priority): `{(8,6,2), (12,10,3), (20,18,4)}`. -/
def scenarioA : List Task :=
  [Task.init 8 2 (some 6) none, Task.init 12 3 (some 10) none,
    Task.init 20 4 (some 18) none]

/-- C1: on the task set {(period 8, deadline 6, exec 2), (period 12,
deadline 10, exec 3), (period 20, deadline 18, exec 4)} sorted by ascending
period, `response_time_analysis` returns schedulable with response times
[2, 5, 11], each at most the corresponding deadline (6, 10, 18). -/
theorem claim_C1 :
    response_time_analysis scenarioA 100 = some (true, [some 2, some 5, some 11]) ∧
      (2 : ℤ) ≤ 6 ∧ (5 : ℤ) ≤ 10 ∧ (11 : ℤ) ≤ 18 := by
  decide

/-- A two-task list whose first task already diverges (execution time 2
exceeds deadline 1), leaving the second task unanalyzed. -/
def exC2 : List Task := [Task.init 5 2 (some 1) none, Task.init 7 1 none none]

/-- C2 counterexample: when the first of two tasks diverges,
`response_time_analysis` returns a response-time list with a single ∞ entry
(`[none]`) — the second, not-yet-analyzed task gets no entry at all, so the
returned sequence does not cover all tasks as the claim states. -/
theorem claim_C2_counterexample :
    response_time_analysis exC2 10 = some (false, [none]) ∧
      [(none : Option ℤ)].length ≠ exC2.length := by
  decide

/-- Structure of `rtaGo`'s unschedulable result: the response times
accumulated so far, then the finite response times of the tasks analyzed
during the call, then exactly one ∞ entry for the diverging task. -/
theorem rtaGo_false {fuel : ℕ} :
    ∀ {rest prior : List Task} {acc rts : List (Option ℤ)},
      rtaGo fuel prior rest acc = some (false, rts) →
      ∃ fin, rts = acc ++ fin ++ [none] ∧ (∀ x ∈ fin, x ≠ none) ∧
        fin.length + 1 ≤ rest.length := by
  intro rest
  induction rest with
  | nil =>
    intro prior acc rts h
    simp [rtaGo] at h
  | cons t rest ih =>
    intro prior acc rts h
    rw [rtaGo] at h
    cases hloop : rtaLoop prior t.execution_time t.deadline fuel t.execution_time with
    | none => rw [hloop] at h; exact absurd h (by simp)
    | some o =>
      cases o with
      | none =>
        rw [hloop] at h
        simp only [Option.some.injEq, Prod.mk.injEq] at h
        refine ⟨[], ?_, by simp, by simp⟩
        simp [← h.2]
      | some r =>
        rw [hloop] at h
        obtain ⟨fin, hrts, hfin, hlen⟩ := ih h
        refine ⟨some r :: fin, ?_, ?_, by simpa using Nat.succ_le_succ hlen⟩
        · simpa using hrts
        · intro x hx
          rcases List.mem_cons.1 hx with rfl | hx
          · simp
          · exact hfin x hx

/-- C2 (amended): when some task's response-time iteration exceeds its
deadline, `response_time_analysis` declares the set unschedulable and
reports ∞ for the failing task only: the returned sequence is the finite
response times of the tasks analyzed before it followed by a single ∞
entry, so it has one entry per analyzed task plus one — not one entry per
task of the input. -/
theorem claim_C2 (tasks : List Task) (fuel : ℕ) (rts : List (Option ℤ))
    (h : response_time_analysis tasks fuel = some (false, rts)) :
    ∃ fin, rts = fin ++ [none] ∧ (∀ x ∈ fin, x ≠ none) ∧
      rts.length ≤ tasks.length := by
  obtain ⟨fin, hrts, hfin, hlen⟩ := rtaGo_false h
  refine ⟨fin, by simpa using hrts, hfin, ?_⟩
  rw [hrts]
  simpa using hlen

/-- Witness for C2 (amended) at the concrete diverging task set. -/
theorem claim_C2_witness :
    ∃ fin, [(none : Option ℤ)] = fin ++ [none] ∧ (∀ x ∈ fin, x ≠ none) ∧
      [(none : Option ℤ)].length ≤ exC2.length :=
  claim_C2 exC2 10 [none] (by decide)

/-- C7 counterexample: `Task(period=-1, execution_time=-1, deadline=-1)` is
constructed without any rejection — the constructor returns a `Task` whose
fields violate the positivity invariant, instead of failing. -/
theorem claim_C7_counterexample :
    Task.init (-1) (-1) (some (-1)) none =
        { period := -1, execution_time := -1, deadline := -1, priority := none } ∧
      ¬ 0 < (Task.init (-1) (-1) (some (-1)) none).period ∧
      ¬ 0 < (Task.init (-1) (-1) (some (-1)) none).execution_time ∧
      ¬ 0 < (Task.init (-1) (-1) (some (-1)) none).deadline := by
  decide

/-- C7 (amended): the `Task` constructor performs no validation at all — it
stores any period, execution time and deadline verbatim (non-positive
values included), the only transformation being that a falsy deadline
argument (`None` or `0`) is replaced by the period. -/
theorem claim_C7 (p e d : ℤ) (pr : Option ℤ) :
    Task.init p e (some d) pr =
        { period := p, execution_time := e,
          deadline := if d = 0 then p else d, priority := pr } ∧
      Task.init p e none pr =
        { period := p, execution_time := e, deadline := p, priority := pr } :=
  ⟨rfl, rfl⟩

/-- Witness for C7 (amended) at concrete constructor arguments. -/
theorem claim_C7_witness :
    Task.init 5 3 (some 7) none =
        { period := 5, execution_time := 3,
          deadline := if (7 : ℤ) = 0 then 5 else 7, priority := none } ∧
      Task.init 5 3 none none =
        { period := 5, execution_time := 3, deadline := 5, priority := none } :=
  claim_C7 5 3 7 none

/-- C8 counterexample: on the empty task set, `rate_monotonic_check` fails
with Python's `ZeroDivisionError` (from `1/n` with `n = 0`), not with a
distinct "empty input" error condition. -/
theorem claim_C8_counterexample :
    rate_monotonic_check_run [] ≠ Except.error PyErr.emptyInput := by
  intro h
  have h2 : Except.error (ε := PyErr) (α := Prop) PyErr.zeroDivision =
      Except.error PyErr.emptyInput := h
  exact absurd (Except.error.inj h2) (by decide)

/-- C8 (amended): on the empty task set the utilization-bound test fails
with the generic division-by-zero error raised by computing `1/n`; no
distinct empty-input check exists in the code. -/
theorem claim_C8 :
    rate_monotonic_check_run [] = Except.error PyErr.zeroDivision := rfl

end TaskSched

namespace TaskSched

/-- Casting the rational utilization sum to `ℝ` gives the sum of the real
per-task ratios. -/
theorem utilization_cast (ts : List Task) :
    ((utilization ts : ℚ) : ℝ) =
      (ts.map (fun t => (t.execution_time : ℝ) / (t.deadline : ℝ))).sum := by
  induction ts with
  | nil => simp [utilization]
  | cons t ts ih =>
    have h1 : utilization (t :: ts) =
        (t.execution_time : ℚ) / t.deadline + utilization ts := by
      simp [utilization]
    rw [h1, Rat.cast_add, ih, List.map_cons, List.sum_cons, Rat.cast_div,
      Rat.cast_intCast, Rat.cast_intCast]

/-- C5: for every non-empty task set, the utilization-bound test
`rate_monotonic_check` accepts exactly when `Σ C_i / D_i` — with the
deadline, not the period, in the denominator — is at most the Liu–Layland
bound `n · (2^(1/n) − 1)`.  The embedded function is total, so it never
fails and always terminates. -/
theorem claim_C5 (ts : List Task) (h : ts ≠ []) :
    rate_monotonic_check ts ↔
      (ts.map (fun t => (t.execution_time : ℝ) / (t.deadline : ℝ))).sum ≤
        (ts.length : ℝ) * ((2 : ℝ) ^ ((1 : ℝ) / (ts.length : ℝ)) - 1) := by
  rw [rate_monotonic_check, utilization_cast]

/-- Witness for C5 at a concrete singleton task set. -/
theorem claim_C5_witness :
    ([Task.init 2 1 none none] ≠ []) ∧
      (rate_monotonic_check [Task.init 2 1 none none] ↔
        ([Task.init 2 1 none none].map
            (fun t => (t.execution_time : ℝ) / (t.deadline : ℝ))).sum ≤
          (([Task.init 2 1 none none].length : ℕ) : ℝ) *
            ((2 : ℝ) ^ ((1 : ℝ) / (([Task.init 2 1 none none].length : ℕ) : ℝ)) - 1)) :=
  ⟨by decide, claim_C5 [Task.init 2 1 none none] (by decide)⟩

end TaskSched

namespace TaskSched

/-- The response-time formula stated by the specification for the
deadline-based test, written directly over the period-sorted list:
`R_i = C_i + Σ_{h<i} ceil(D_i / T_h) · C_h`. -/
def rm1SpecR (sorted : List Task) (i : ℕ) (h : i < sorted.length) : ℤ :=
  sorted[i].execution_time +
    ((sorted.take i).map
      (fun t => ceilq sorted[i].deadline t.period * t.execution_time)).sum

/-- Lemma: `rm1Go` produces one response time per task. -/
theorem rm1Go_length (l : List Task) :
    ∀ prior : List Task, (rm1Go prior l).length = l.length := by
  induction l with
  | nil => intro prior; rfl
  | cons t rest ih => intro prior; simp [rm1Go, ih]

/-- Each entry of `rm1Go prior l` is the head execution time plus the
interference of all earlier tasks (those in `prior` and those preceding it
in `l`) over its deadline. -/
theorem rm1Go_getElem :
    ∀ (l prior : List Task) (i : ℕ) (h : i < l.length)
      (h' : i < (rm1Go prior l).length),
      (rm1Go prior l)[i] =
        l[i].execution_time + interference (prior ++ l.take i) l[i].deadline
  | [], _, i, h, _ => absurd h (by simp)
  | t :: rest, prior, 0, h, h' => by
    simp [rm1Go]
  | t :: rest, prior, i + 1, h, h' => by
    have hr : i < rest.length := by simpa using h
    have hr' : i < (rm1Go (prior ++ [t]) rest).length := by
      rw [rm1Go_length]; exact hr
    simp only [rm1Go, List.getElem_cons_succ, List.take_succ_cons]
    rw [rm1Go_getElem rest (prior ++ [t]) i hr hr', List.append_assoc,
      List.singleton_append]

/-- C6: the deadline-based response-time test `rate_monotonic_check_1`
sorts the tasks by ascending period and accepts exactly when, for every
task `i` of the sorted list, the single-pass response time
`R_i = C_i + Σ_{h<i} ceil(D_i / T_h) · C_h` is at most `D_i`.  The
embedded function is a single pass with no fixed-point iteration. -/
theorem claim_C6 (ts : List Task) :
    (rate_monotonic_check_1 ts = true ↔
      ∀ (i : ℕ) (h : i < (sortByPeriod ts).length),
        rm1SpecR (sortByPeriod ts) i h ≤ (sortByPeriod ts)[i].deadline) ∧
    List.Sorted (fun a b : Task => a.period ≤ b.period) (sortByPeriod ts) := by
  constructor
  · set sorted := sortByPeriod ts with hs
    have hlen : (rm1Go [] sorted).length = sorted.length := rm1Go_length sorted []
    have hzlen : (sorted.zip (rm1Go [] sorted)).length = sorted.length := by
      simp [List.length_zip, hlen]
    constructor
    · intro hall i h
      rw [rate_monotonic_check_1, List.all_eq_true] at hall
      have hz : i < (sorted.zip (rm1Go [] sorted)).length := by rw [hzlen]; exact h
      have hmem := hall _ (List.getElem_mem hz)
      rw [List.getElem_zip] at hmem
      have hle : (rm1Go [] sorted)[i] ≤ sorted[i].deadline := of_decide_eq_true hmem
      rw [rm1Go_getElem sorted [] i h (by rw [hlen]; exact h),
        List.nil_append] at hle
      simpa [rm1SpecR, interference] using hle
    · intro hspec
      rw [rate_monotonic_check_1, List.all_eq_true]
      intro p hp
      obtain ⟨i, hz, rfl⟩ := List.getElem_of_mem hp
      rw [List.getElem_zip]
      have h : i < sorted.length := by rw [← hzlen]; exact hz
      have := hspec i h
      rw [rm1SpecR] at this
      refine decide_eq_true ?_
      rw [rm1Go_getElem sorted [] i h (by rw [hlen]; exact h), List.nil_append]
      simpa [interference] using this
  · haveI : IsTotal Task (fun a b : Task => a.period ≤ b.period) :=
      ⟨fun a b => le_total _ _⟩
    haveI : IsTrans Task (fun a b : Task => a.period ≤ b.period) :=
      ⟨fun _ _ _ hab hbc => le_trans hab hbc⟩
    exact List.sorted_insertionSort _ _

/-- Witness for C6 at the concrete scenario-A task set. -/
theorem claim_C6_witness :
    (rate_monotonic_check_1 scenarioA = true ↔
      ∀ (i : ℕ) (h : i < (sortByPeriod scenarioA).length),
        rm1SpecR (sortByPeriod scenarioA) i h ≤ (sortByPeriod scenarioA)[i].deadline) ∧
    List.Sorted (fun a b : Task => a.period ≤ b.period) (sortByPeriod scenarioA) :=
  claim_C6 scenarioA

end TaskSched

namespace TaskSched

/-- The exact ceiling of a nonnegative quotient is nonnegative. -/
theorem ceilq_nonneg {r T : ℤ} (hr : 0 ≤ r) (hT : 0 < T) : 0 ≤ ceilq r T := by
  rw [ceilq_eq_ceil r hT]
  exact Int.ceil_nonneg (div_nonneg (by exact_mod_cast hr) (by exact_mod_cast hT.le))

/-- The exact ceiling of a quotient is monotone in the numerator (for a
positive divisor). -/
theorem ceilq_mono {r r' T : ℤ} (h : r ≤ r') (hT : 0 < T) :
    ceilq r T ≤ ceilq r' T := by
  rw [ceilq_eq_ceil r hT, ceilq_eq_ceil r' hT]
  refine Int.ceil_le_ceil ?_
  have hT' : (0 : ℚ) < (T : ℚ) := by exact_mod_cast hT
  exact (div_le_div_right hT').mpr (by exact_mod_cast h)

/-- Interference is nonnegative when the higher-priority tasks have
positive periods and nonnegative execution times and the response-time
argument is nonnegative. -/
theorem interference_nonneg {prior : List Task} {r : ℤ}
    (hp : ∀ t ∈ prior, 0 < t.period) (hc : ∀ t ∈ prior, 0 ≤ t.execution_time)
    (hr : 0 ≤ r) : 0 ≤ interference prior r := by
  refine List.sum_nonneg ?_
  intro x hx
  obtain ⟨t, ht, rfl⟩ := List.mem_map.1 hx
  exact mul_nonneg (ceilq_nonneg hr (hp t ht)) (hc t ht)

/-- Interference is monotone in the response-time argument. -/
theorem interference_mono {prior : List Task} {r r' : ℤ}
    (hp : ∀ t ∈ prior, 0 < t.period) (hc : ∀ t ∈ prior, 0 ≤ t.execution_time)
    (h : r ≤ r') : interference prior r ≤ interference prior r' := by
  refine List.sum_le_sum ?_
  intro t ht
  exact mul_le_mul_of_nonneg_right (ceilq_mono h (hp t ht)) (hc t ht)

/-- Core termination argument for the response-time iteration: along the
loop the iterate only grows (`r ≤ C + interference prior r` is invariant),
so with `(D + 2 - r).toNat` as a strictly decreasing measure the loop
reaches a fixed point or exceeds the deadline before the fuel runs out. -/
theorem rtaLoop_isSome {prior : List Task} {C D : ℤ}
    (hp : ∀ t ∈ prior, 0 < t.period) (hc : ∀ t ∈ prior, 0 ≤ t.execution_time)
    (hC : 0 < C) :
    ∀ (fuel : ℕ) (r : ℤ), 0 ≤ r → r ≤ C + interference prior r →
      (D + 2 - r).toNat < fuel → (rtaLoop prior C D fuel r).isSome := by
  intro fuel
  induction fuel with
  | zero => intro r _ _ hm; exact absurd hm (by omega)
  | succ fuel ih =>
    intro r hr hinv hm
    rw [rtaLoop]
    by_cases h1 : D < C + interference prior r
    · simp [h1]
    · rw [if_neg h1]
      by_cases h2 : C + interference prior r = r
      · simp [h2]
      · rw [if_neg h2]
        set rNew := C + interference prior r with hrNew
        have hlt : r < rNew := lt_of_le_of_ne hinv (fun h => h2 h.symm)
        have hle : rNew ≤ D := not_lt.1 h1
        refine ih rNew (le_trans hr hlt.le) ?_ ?_
        · have hmono : interference prior r ≤ interference prior rNew :=
            interference_mono hp hc hlt.le
          omega
        · have hpos : 0 < D + 2 - r := by omega
          have : (D + 2 - rNew).toNat < (D + 2 - r).toNat := by
            refine (Int.toNat_lt_toNat ?_).2 (by omega)
            omega
          omega

/-- The fuel bound used by the termination theorem:
`max over the tasks of (deadline + 2) + 1`. -/
def rtaFuel (tasks : List Task) : ℕ :=
  tasks.foldr (fun t acc => max ((t.deadline + 2).toNat + 1) acc) 1

/-- Every task's deadline-derived measure is below `rtaFuel`. -/
theorem rtaFuel_bound {tasks : List Task} {t : Task} (ht : t ∈ tasks) :
    (t.deadline + 2).toNat + 1 ≤ rtaFuel tasks := by
  induction tasks with
  | nil => cases ht
  | cons u rest ih =>
    rcases List.mem_cons.1 ht with rfl | ht
    · exact le_max_left _ _
    · exact le_trans (ih ht) (le_max_right _ _)

/-- Lemma: `rtaFuel` is at least one. -/
theorem rtaFuel_pos (tasks : List Task) : 1 ≤ rtaFuel tasks := by
  induction tasks with
  | nil => exact le_refl 1
  | cons u rest ih => exact le_trans ih (le_max_right _ _)

/-- The per-task loop never exhausts the fuel `rtaFuel`, for any task of
the list processed in any order. -/
theorem rtaGo_isSome {tasks : List Task}
    (hp : ∀ t ∈ tasks, 0 < t.period) (hc : ∀ t ∈ tasks, 0 < t.execution_time) :
    ∀ (rest prior : List Task) (acc : List (Option ℤ)),
      (∀ t ∈ rest, t ∈ tasks) → (∀ t ∈ prior, t ∈ tasks) →
      (rtaGo (rtaFuel tasks) prior rest acc).isSome := by
  intro rest
  induction rest with
  | nil => intro prior acc _ _; simp [rtaGo]
  | cons t rest ih =>
    intro prior acc hrest hprior
    have htmem : t ∈ tasks := hrest t (List.mem_cons_self t rest)
    have hp' : ∀ u ∈ prior, 0 < u.period := fun u hu => hp u (hprior u hu)
    have hc' : ∀ u ∈ prior, 0 ≤ u.execution_time :=
      fun u hu => (hc u (hprior u hu)).le
    have hCt : 0 < t.execution_time := hc t htmem
    have hmeas : (t.deadline + 2 - t.execution_time).toNat < rtaFuel tasks := by
      have h1 := rtaFuel_bound htmem
      have h2 : (t.deadline + 2 - t.execution_time).toNat ≤ (t.deadline + 2).toNat := by
        apply Int.toNat_le_toNat; omega
      omega
    have hloop := rtaLoop_isSome hp' hc' hCt (rtaFuel tasks) t.execution_time
      hCt.le
      (le_add_of_nonneg_right (interference_nonneg hp' hc' hCt.le))
      hmeas
    rw [rtaGo]
    cases hres : rtaLoop prior t.execution_time t.deadline (rtaFuel tasks)
        t.execution_time with
    | none => rw [hres] at hloop; exact absurd hloop (by simp)
    | some o =>
      cases o with
      | none => simp
      | some r =>
        refine ih (prior ++ [t]) (acc ++ [some r]) (fun u hu => hrest u (List.mem_cons_of_mem t hu)) ?_
        intro u hu
        rcases List.mem_append.1 hu with hu | hu
        · exact hprior u hu
        · rw [List.mem_singleton.1 hu]; exact htmem

/-- C9: for every task list with positive periods and positive execution
times, `response_time_analysis` terminates: the iterated response-time
sequence is non-decreasing (the invariant `r ≤ C + interference prior r`
maintained in `rtaLoop_isSome`), the loop exits at a fixed point or as soon
as the iterate exceeds the deadline, and the concrete fuel `rtaFuel tasks`
is never exhausted — even when a task's execution time exceeds its
period. -/
theorem claim_C9 (tasks : List Task)
    (hp : ∀ t ∈ tasks, 0 < t.period) (hc : ∀ t ∈ tasks, 0 < t.execution_time) :
    (response_time_analysis tasks (rtaFuel tasks)).isSome = true := by
  have := rtaGo_isSome hp hc tasks [] [] (fun t ht => ht) (fun t ht => absurd ht (by simp))
  simpa [response_time_analysis] using this

/-- Witness for C9 at a task whose execution time (5) exceeds its period
(2): the analysis still terminates (reporting unschedulable). -/
theorem claim_C9_witness :
    (response_time_analysis [Task.init 2 5 none none]
      (rtaFuel [Task.init 2 5 none none])).isSome = true :=
  claim_C9 [Task.init 2 5 none none] (by decide) (by decide)

end TaskSched

namespace TaskSched

/-- The order in which Python's list bookkeeping keeps equal-priority-key
instances: by release time, then (for simultaneous releases) by original
input position. -/
def tieLT (a b : Inst) : Prop :=
  a.release_time < b.release_time ∨
    (a.release_time = b.release_time ∧ a.idx < b.idx)

/-- Relative order of two instances of the simulator's active list: if
their priority keys are equal, the first was released earlier, or
simultaneously from an earlier input task. -/
def instOrd (alg : Alg) (a b : Inst) : Prop :=
  key alg a.task = key alg b.task → tieLT a b

/-- Relative order of two entries of the priority-sorted task list: equal
keys only for increasing input positions. -/
def tsOrd (alg : Alg) (p q : ℕ × Task) : Prop :=
  key alg p.2 = key alg q.2 → p.1 < q.1

/-- Stability of `List.orderedInsert` under the non-strict key comparison:
inserting an element that is key-conditionally related to everything in the
list preserves the key-conditional pairwise relation. -/
theorem pairwise_cond_orderedInsert {α : Type} (k : α → ℤ) (S : α → α → Prop)
    (a : α) (l : List α)
    (h : l.Pairwise (fun x y => k x = k y → S x y))
    (ha : ∀ b ∈ l, k a = k b → S a b) :
    (List.orderedInsert (fun x y => k x ≤ k y) a l).Pairwise
      (fun x y => k x = k y → S x y) := by
  induction l with
  | nil => simp
  | cons b bs ih =>
    rw [List.orderedInsert]
    split_ifs with hab
    · exact List.pairwise_cons.2 ⟨ha, h⟩
    · have hba : k b < k a := not_le.1 hab
      obtain ⟨hb, hbs⟩ := List.pairwise_cons.1 h
      refine List.pairwise_cons.2 ⟨?_, ?_⟩
      · intro x hx
        rcases (List.mem_orderedInsert _).1 hx with rfl | hx
        · intro hk; exact absurd hk (by omega)
        · exact hb x hx
      · exact ih hbs (fun x hx => ha x (List.mem_cons_of_mem b hx))

/-- Stability of `List.insertionSort` under the non-strict key comparison:
the key-conditional pairwise relation of the input survives sorting.  This
is the formal counterpart of Python's `sort` being stable. -/
theorem pairwise_cond_insertionSort {α : Type} (k : α → ℤ) (S : α → α → Prop)
    (l : List α) (h : l.Pairwise (fun x y => k x = k y → S x y)) :
    (List.insertionSort (fun x y => k x ≤ k y) l).Pairwise
      (fun x y => k x = k y → S x y) := by
  induction l with
  | nil => simp
  | cons a l ih =>
    obtain ⟨ha, hl⟩ := List.pairwise_cons.1 h
    rw [List.insertionSort]
    refine pairwise_cond_orderedInsert k S a _ (ih hl) ?_
    intro b hb
    exact ha b ((List.mem_insertionSort _).1 hb)

/-- The sorted ready list is ordered by the active priority key. -/
theorem sortInsts_sorted (alg : Alg) (l : List Inst) :
    (sortInsts alg l).Pairwise (fun a b => key alg a.task ≤ key alg b.task) := by
  haveI : IsTotal Inst (fun a b => key alg a.task ≤ key alg b.task) :=
    ⟨fun a b => le_total _ _⟩
  haveI : IsTrans Inst (fun a b => key alg a.task ≤ key alg b.task) :=
    ⟨fun _ _ _ hab hbc => le_trans hab hbc⟩
  exact List.sorted_insertionSort _ _

/-- Sorting the ready list preserves the release/input-order relation on
equal keys (stability). -/
theorem sortInsts_ord (alg : Alg) (l : List Inst)
    (h : l.Pairwise (instOrd alg)) :
    (sortInsts alg l).Pairwise (instOrd alg) := by
  have h' : l.Pairwise
      (fun x y : Inst => key alg x.task = key alg y.task → tieLT x y) := h
  exact pairwise_cond_insertionSort (fun e : Inst => key alg e.task) tieLT l h'

/-- Membership in the sorted ready list. -/
theorem mem_sortInsts {alg : Alg} {l : List Inst} {e : Inst} :
    e ∈ sortInsts alg l ↔ e ∈ l :=
  List.mem_insertionSort _

/-- Every instance produced by the release phase at time `t` carries
release time `t` and absolute deadline `t + deadline`. -/
theorem mem_release {tasksSorted : List (ℕ × Task)} {t : ℕ} {e : Inst}
    (h : e ∈ release tasksSorted t) :
    e.release_time = t ∧
      e.absolute_deadline = (e.release_time : ℤ) + e.task.deadline := by
  rw [release] at h
  obtain ⟨p, _, rfl⟩ := List.mem_map.1 h
  exact ⟨rfl, rfl⟩

/-- The release phase emits instances in priority-sorted task order, so
equal keys appear in increasing input order; all share release time `t`. -/
theorem release_pairwise {alg : Alg} {tasksSorted : List (ℕ × Task)}
    (hts : tasksSorted.Pairwise (tsOrd alg)) (t : ℕ) :
    (release tasksSorted t).Pairwise (instOrd alg) := by
  rw [release, List.pairwise_map]
  refine (hts.filter _).imp ?_
  intro p q hpq hk
  exact Or.inr ⟨rfl, hpq hk⟩

/-- The enumerated task list has strictly increasing input positions. -/
theorem enum_pairwise_fst (l : List Task) :
    l.enum.Pairwise (fun p q => p.1 < q.1) := by
  have h : (l.enum.map Prod.fst).Pairwise (fun a b : ℕ => a < b) := by
    rw [List.enum_map_fst]
    exact List.sorted_lt_range l.length
  exact List.pairwise_map.1 h

/-- The priority-sorted task list keeps equal keys in input order — the
stability of `sorted(tasks, key=...)`. -/
theorem sortTasks_pairwise (alg : Alg) (tasks : List Task) :
    (sortTasks alg tasks.enum).Pairwise (tsOrd alg) := by
  have h0 : tasks.enum.Pairwise
      (fun p q : ℕ × Task => key alg p.2 = key alg q.2 → p.1 < q.1) := by
    refine (enum_pairwise_fst tasks).imp ?_
    intro p q hpq _
    exact hpq
  exact pairwise_cond_insertionSort (fun p : ℕ × Task => key alg p.2)
    (fun p q : ℕ × Task => p.1 < q.1) tasks.enum h0

end TaskSched

namespace TaskSched

/-- Evaluating `getD` after appending one element, below the old length. -/
theorem getD_concat_lt {α : Type} (l : List α) (x d : α) {i : ℕ}
    (h : i < l.length) : (l ++ [x]).getD i d = l.getD i d := by
  rw [List.getD_eq_getElem?_getD, List.getD_eq_getElem?_getD,
    List.getElem?_append_left h]

/-- Evaluating `getD` after appending one element, at the old length. -/
theorem getD_concat_self {α : Type} (l : List α) (x d : α) :
    (l ++ [x]).getD l.length d = x := by
  rw [List.getD_eq_getElem?_getD, List.getElem?_concat_length]
  rfl

/-- What one simulation time unit `i` guarantees about its recorded
timeline entry, violation flag, selected instance and sorted ready list:
an idle unit records no violation and an empty ready list; an executing
unit records the executing instance's input index, flags a violation
exactly when the unit runs at or after the instance's absolute deadline
(`release_time + deadline`), and the executing instance minimizes the
priority key over the ready list, with ties broken by earliest release
time and then by original input order. -/
def StepOK (alg : Alg) (i : ℕ) (tl : Option ℕ) (vi : Bool) (se : Option Inst)
    (re : List Inst) : Prop :=
  (se = none → tl = none ∧ vi = false ∧ re = []) ∧
  (∀ e, se = some e →
    tl = some e.idx ∧
    (vi = true ↔ (e.release_time : ℤ) + e.task.deadline ≤ (i : ℤ)) ∧
    e ∈ re ∧
    ∀ e' ∈ re,
      key alg e.task < key alg e'.task ∨
        (key alg e.task = key alg e'.task ∧
          (e.release_time < e'.release_time ∨
            (e.release_time = e'.release_time ∧ e.idx ≤ e'.idx))))

/-- The simulator's loop invariant after `t` simulated units: every active
instance has a consistent absolute deadline and was released before `t`,
the active list keeps equal-key instances ordered by release then input
position, the four recorded sequences have one entry per elapsed unit, and
every elapsed unit satisfies `StepOK`. -/
structure SimInv (alg : Alg) (t : ℕ) (st : SimState) : Prop where
  active_dl : ∀ e ∈ st.active,
    e.absolute_deadline = (e.release_time : ℤ) + e.task.deadline
  active_rel : ∀ e ∈ st.active, e.release_time < t
  active_ord : st.active.Pairwise (instOrd alg)
  len_tl : st.timeline.length = t
  len_vi : st.violations.length = t
  len_se : st.selected.length = t
  len_re : st.readys.length = t
  steps : ∀ i, i < t →
    StepOK alg i (st.timeline.getD i none) (st.violations.getD i false)
      (st.selected.getD i none) (st.readys.getD i [])

/-- One simulation step preserves the loop invariant. -/
theorem simStep_inv {alg : Alg} {tasksSorted : List (ℕ × Task)} {t : ℕ}
    {st : SimState} (hts : tasksSorted.Pairwise (tsOrd alg))
    (hinv : SimInv alg t st) :
    SimInv alg (t + 1) (simStep alg tasksSorted t st) := by
  have hW_dl : ∀ e ∈ st.active ++ release tasksSorted t,
      e.absolute_deadline = (e.release_time : ℤ) + e.task.deadline := by
    intro e he
    rcases List.mem_append.1 he with he | he
    · exact hinv.active_dl e he
    · exact (mem_release he).2
  have hW_rel : ∀ e ∈ st.active ++ release tasksSorted t,
      e.release_time ≤ t := by
    intro e he
    rcases List.mem_append.1 he with he | he
    · exact (hinv.active_rel e he).le
    · exact le_of_eq (mem_release he).1
  have hW_ord : (st.active ++ release tasksSorted t).Pairwise (instOrd alg) := by
    rw [List.pairwise_append]
    refine ⟨hinv.active_ord, release_pairwise hts t, ?_⟩
    intro a ha b hb _
    exact Or.inl (lt_of_lt_of_le (hinv.active_rel a ha) (le_of_eq (mem_release hb).1.symm))
  set R := (st.active ++ release tasksSorted t).filter (fun i => 0 < i.remaining)
    with hR
  have hmemR : ∀ e ∈ R, e ∈ st.active ++ release tasksSorted t := by
    intro e he
    exact List.mem_of_mem_filter he
  have hordL : (sortInsts alg R).Pairwise (instOrd alg) :=
    sortInsts_ord alg R (hW_ord.filter _)
  have hsortL : (sortInsts alg R).Pairwise
      (fun a b => key alg a.task ≤ key alg b.task) := sortInsts_sorted alg R
  have hmemL : ∀ e ∈ sortInsts alg R, e ∈ st.active ++ release tasksSorted t :=
    fun e he => hmemR e (mem_sortInsts.1 he)
  have hstep : simStep alg tasksSorted t st = execPhase t st (sortInsts alg R) := rfl
  rw [hstep]
  cases hL : sortInsts alg R with
  | nil =>
    refine ⟨?_, ?_, ?_, ?_, ?_, ?_, ?_, ?_⟩
    · intro e he; exact absurd he (by simp [execPhase])
    · intro e he; exact absurd he (by simp [execPhase])
    · simp [execPhase]
    · simp [execPhase, hinv.len_tl]
    · simp [execPhase, hinv.len_vi]
    · simp [execPhase, hinv.len_se]
    · simp [execPhase, hinv.len_re]
    · intro i hi
      rcases Nat.lt_or_ge i t with hit | hit
      · have e1 : (st.timeline ++ [(none : Option ℕ)]).getD i none =
            st.timeline.getD i none := getD_concat_lt _ _ _ (hinv.len_tl ▸ hit)
        have e2 : (st.violations ++ [false]).getD i false =
            st.violations.getD i false := getD_concat_lt _ _ _ (hinv.len_vi ▸ hit)
        have e3 : (st.selected ++ [(none : Option Inst)]).getD i none =
            st.selected.getD i none := getD_concat_lt _ _ _ (hinv.len_se ▸ hit)
        have e4 : (st.readys ++ [([] : List Inst)]).getD i [] =
            st.readys.getD i [] := getD_concat_lt _ _ _ (hinv.len_re ▸ hit)
        simp only [execPhase]
        rw [e1, e2, e3, e4]
        exact hinv.steps i hit
      · have hieq : i = t := by omega
        subst hieq
        have e1 : (st.timeline ++ [(none : Option ℕ)]).getD i none = none := by
          rw [← hinv.len_tl]; exact getD_concat_self _ _ _
        have e2 : (st.violations ++ [false]).getD i false = false := by
          rw [← hinv.len_vi]; exact getD_concat_self _ _ _
        have e3 : (st.selected ++ [(none : Option Inst)]).getD i none = none := by
          rw [← hinv.len_se]; exact getD_concat_self _ _ _
        have e4 : (st.readys ++ [([] : List Inst)]).getD i [] = [] := by
          rw [← hinv.len_re]; exact getD_concat_self _ _ _
        simp only [execPhase]
        rw [e1, e2, e3, e4]
        exact ⟨fun _ => ⟨rfl, rfl, rfl⟩, fun e he => by simp at he⟩
  | cons e rest =>
    have hLe : e ∈ st.active ++ release tasksSorted t := by
      refine hmemL e ?_
      rw [hL]; exact List.mem_cons_self e rest
    have hLrest : ∀ x ∈ rest, x ∈ st.active ++ release tasksSorted t := by
      intro x hx
      refine hmemL x ?_
      rw [hL]; exact List.mem_cons_of_mem e hx
    have hordL' : (e :: rest).Pairwise (instOrd alg) := hL ▸ hordL
    have hsortL' : (e :: rest).Pairwise
        (fun a b => key alg a.task ≤ key alg b.task) := hL ▸ hsortL
    refine ⟨?_, ?_, ?_, ?_, ?_, ?_, ?_, ?_⟩
    · intro x hx
      rcases List.mem_cons.1 hx with rfl | hx
      · exact hW_dl e hLe
      · exact hW_dl x (hLrest x hx)
    · intro x hx
      rcases List.mem_cons.1 hx with rfl | hx
      · exact Nat.lt_succ_of_le (hW_rel e hLe)
      · exact Nat.lt_succ_of_le (hW_rel x (hLrest x hx))
    · obtain ⟨h1, h2⟩ := List.pairwise_cons.1 hordL'
      exact List.pairwise_cons.2 ⟨fun x hx => h1 x hx, h2⟩
    · simp [execPhase, hinv.len_tl]
    · simp [execPhase, hinv.len_vi]
    · simp [execPhase, hinv.len_se]
    · simp [execPhase, hinv.len_re]
    · intro i hi
      rcases Nat.lt_or_ge i t with hit | hit
      · have e1 : (st.timeline ++ [some e.idx]).getD i none =
            st.timeline.getD i none := getD_concat_lt _ _ _ (hinv.len_tl ▸ hit)
        have e2 : (st.violations ++ [decide (e.absolute_deadline ≤ (t : ℤ))]).getD i false =
            st.violations.getD i false := getD_concat_lt _ _ _ (hinv.len_vi ▸ hit)
        have e3 : (st.selected ++ [some e]).getD i none =
            st.selected.getD i none := getD_concat_lt _ _ _ (hinv.len_se ▸ hit)
        have e4 : (st.readys ++ [e :: rest]).getD i [] =
            st.readys.getD i [] := getD_concat_lt _ _ _ (hinv.len_re ▸ hit)
        simp only [execPhase]
        rw [e1, e2, e3, e4]
        exact hinv.steps i hit
      · have hieq : i = t := by omega
        subst hieq
        have e1 : (st.timeline ++ [some e.idx]).getD i none = some e.idx := by
          rw [← hinv.len_tl]; exact getD_concat_self _ _ _
        have e2 : (st.violations ++ [decide (e.absolute_deadline ≤ (i : ℤ))]).getD i false =
            decide (e.absolute_deadline ≤ (i : ℤ)) := by
          rw [← hinv.len_vi]; exact getD_concat_self _ _ _
        have e3 : (st.selected ++ [some e]).getD i none = some e := by
          rw [← hinv.len_se]; exact getD_concat_self _ _ _
        have e4 : (st.readys ++ [e :: rest]).getD i [] = e :: rest := by
          rw [← hinv.len_re]; exact getD_concat_self _ _ _
        simp only [execPhase]
        rw [e1, e2, e3, e4]
        refine ⟨fun h => by simp at h, ?_⟩
        intro e'' heq
        obtain rfl : e = e'' := Option.some.inj heq
        refine ⟨rfl, ?_, List.mem_cons_self e rest, ?_⟩
        · simp only [decide_eq_true_eq]
          rw [hW_dl e hLe]
        · intro e' he'
          rcases List.mem_cons.1 he' with rfl | hmem
          · exact Or.inr ⟨rfl, Or.inr ⟨rfl, le_refl _⟩⟩
          · have hkle : key alg e.task ≤ key alg e'.task :=
              (List.pairwise_cons.1 hsortL').1 e' hmem
            have hcond : key alg e.task = key alg e'.task → tieLT e e' :=
              (List.pairwise_cons.1 hordL').1 e' hmem
            rcases lt_or_eq_of_le hkle with hlt | heqk
            · exact Or.inl hlt
            · refine Or.inr ⟨heqk, ?_⟩
              rcases hcond heqk with h | ⟨h1, h2⟩
              · exact Or.inl h
              · exact Or.inr ⟨h1, h2.le⟩

/-- The loop invariant holds after any number of simulated units. -/
theorem simRun_inv {alg : Alg} {tasksSorted : List (ℕ × Task)}
    (hts : tasksSorted.Pairwise (tsOrd alg)) :
    ∀ n, SimInv alg n (simRun alg tasksSorted n) := by
  intro n
  induction n with
  | zero =>
    exact ⟨fun e he => absurd he (by simp [simRun]),
      fun e he => absurd he (by simp [simRun]), by simp [simRun], rfl, rfl, rfl,
      rfl, fun i hi => absurd hi (by omega)⟩
  | succ n ih => exact simStep_inv hts ih

end TaskSched

namespace TaskSched

/-- C3: in every simulation run and for every time unit `t` in range,
`deadline_violations[t]` is true iff some instance is selected to execute
at `t` and `t ≥` that instance's absolute deadline
(`release_time + task.deadline`); and when no instance is ready at `t`,
`execution_timeline[t]` is idle and `deadline_violations[t]` is false. -/
theorem claim_C3 (tasks : List Task) (cycles : ℕ) (alg : Alg) (t : ℕ)
    (ht : t < time_range tasks cycles) :
    ((generate_schedule_data tasks cycles alg).violations.getD t false = true ↔
      ∃ e, (generate_schedule_data tasks cycles alg).selected.getD t none = some e ∧
        (e.release_time : ℤ) + e.task.deadline ≤ (t : ℤ)) ∧
    ((generate_schedule_data tasks cycles alg).selected.getD t none = none →
      (generate_schedule_data tasks cycles alg).timeline.getD t none = none ∧
      (generate_schedule_data tasks cycles alg).violations.getD t false = false) := by
  have hgen : generate_schedule_data tasks cycles alg =
      simRun alg (sortTasks alg tasks.enum) (time_range tasks cycles) := rfl
  rw [hgen]
  obtain ⟨hnone, hsome⟩ :=
    (simRun_inv (sortTasks_pairwise alg tasks) (time_range tasks cycles)).steps t ht
  constructor
  · constructor
    · intro hvi
      cases hse : (simRun alg (sortTasks alg tasks.enum)
          (time_range tasks cycles)).selected.getD t none with
      | none =>
        obtain ⟨_, h2, _⟩ := hnone hse
        rw [h2] at hvi
        exact absurd hvi (by simp)
      | some e =>
        obtain ⟨_, hiff, _, _⟩ := hsome e hse
        exact ⟨e, rfl, hiff.1 hvi⟩
    · rintro ⟨e, hse, hle⟩
      obtain ⟨_, hiff, _, _⟩ := hsome e hse
      exact hiff.2 hle
  · intro hse
    obtain ⟨h1, h2, _⟩ := hnone hse
    exact ⟨h1, h2⟩

/-- Witness for C3 at the single task (period 2, deadline 2, exec 1), Rate
Monotonic, one hyperperiod, time unit 0. -/
theorem claim_C3_witness :
    (0 < time_range [Task.init 2 1 none none] 1) ∧
    (((generate_schedule_data [Task.init 2 1 none none] 1 .RM).violations.getD 0 false = true ↔
      ∃ e, (generate_schedule_data [Task.init 2 1 none none] 1 .RM).selected.getD 0 none = some e ∧
        (e.release_time : ℤ) + e.task.deadline ≤ (0 : ℕ)) ∧
    ((generate_schedule_data [Task.init 2 1 none none] 1 .RM).selected.getD 0 none = none →
      (generate_schedule_data [Task.init 2 1 none none] 1 .RM).timeline.getD 0 none = none ∧
      (generate_schedule_data [Task.init 2 1 none none] 1 .RM).violations.getD 0 false = false)) :=
  ⟨by decide, claim_C3 [Task.init 2 1 none none] 1 .RM 0 (by decide)⟩

/-- C4 counterexample: two identical tasks (period 4 = deadline, exec 3)
under Rate Monotonic, two hyperperiods.  At time unit 4 the executing
instance comes from input task 1 (the unfinished instance released at
time 0), while a ready instance of input task 0 (released at time 4) has
the same priority key — the tie is broken by release time, not by original
TaskSet order as the claim states. -/
theorem claim_C4_counterexample :
    ((generate_schedule_data [Task.init 4 3 none none, Task.init 4 3 none none]
        2 .RM).selected.getD 4 none = some ⟨1, ⟨4, 3, 4, none⟩, 2, 0, 4⟩) ∧
    ((⟨0, ⟨4, 3, 4, none⟩, 3, 4, 8⟩ : Inst) ∈
      (generate_schedule_data [Task.init 4 3 none none, Task.init 4 3 none none]
        2 .RM).readys.getD 4 []) ∧
    key .RM (⟨4, 3, 4, none⟩ : Task) = key .RM (⟨4, 3, 4, none⟩ : Task) ∧
    (0 : ℕ) < 1 := by
  decide

/-- C4 (amended): in every simulation time unit the executing instance
minimizes the active priority key (shorter period under Rate Monotonic,
shorter deadline under Deadline Monotonic) over the ready set; ties on the
key are broken by earliest release time first, and only among simultaneous
releases by the tasks' original TaskSet order. -/
theorem claim_C4 (tasks : List Task) (cycles : ℕ) (alg : Alg) (t : ℕ) (e : Inst)
    (hse : (generate_schedule_data tasks cycles alg).selected.getD t none = some e) :
    ∀ e' ∈ (generate_schedule_data tasks cycles alg).readys.getD t [],
      key alg e.task < key alg e'.task ∨
        (key alg e.task = key alg e'.task ∧
          (e.release_time < e'.release_time ∨
            (e.release_time = e'.release_time ∧ e.idx ≤ e'.idx))) := by
  have hgen : generate_schedule_data tasks cycles alg =
      simRun alg (sortTasks alg tasks.enum) (time_range tasks cycles) := rfl
  rw [hgen] at hse ⊢
  have hinv := simRun_inv (sortTasks_pairwise alg tasks) (time_range tasks cycles)
  by_cases ht : t < time_range tasks cycles
  · obtain ⟨_, hsome⟩ := hinv.steps t ht
    obtain ⟨_, _, _, hmin⟩ := hsome e hse
    exact hmin
  · exfalso
    rw [List.getD_eq_getElem?_getD,
      List.getElem?_eq_none (by rw [hinv.len_se]; omega)] at hse
    exact absurd hse (by simp)

/-- Witness for C4 (amended) at the counterexample scenario, time unit 4,
comparing the executing instance with the ready instance of input task 0. -/
theorem claim_C4_witness :
    key .RM (⟨1, ⟨4, 3, 4, none⟩, 2, 0, 4⟩ : Inst).task <
        key .RM (⟨0, ⟨4, 3, 4, none⟩, 3, 4, 8⟩ : Inst).task ∨
      (key .RM (⟨1, ⟨4, 3, 4, none⟩, 2, 0, 4⟩ : Inst).task =
          key .RM (⟨0, ⟨4, 3, 4, none⟩, 3, 4, 8⟩ : Inst).task ∧
        ((⟨1, ⟨4, 3, 4, none⟩, 2, 0, 4⟩ : Inst).release_time <
            (⟨0, ⟨4, 3, 4, none⟩, 3, 4, 8⟩ : Inst).release_time ∨
          ((⟨1, ⟨4, 3, 4, none⟩, 2, 0, 4⟩ : Inst).release_time =
              (⟨0, ⟨4, 3, 4, none⟩, 3, 4, 8⟩ : Inst).release_time ∧
            (⟨1, ⟨4, 3, 4, none⟩, 2, 0, 4⟩ : Inst).idx ≤
              (⟨0, ⟨4, 3, 4, none⟩, 3, 4, 8⟩ : Inst).idx))) :=
  claim_C4 [Task.init 4 3 none none, Task.init 4 3 none none] 2 .RM 4
    ⟨1, ⟨4, 3, 4, none⟩, 2, 0, 4⟩ (by decide) ⟨0, ⟨4, 3, 4, none⟩, 3, 4, 8⟩
    (by decide)

end TaskSched

namespace TaskSched

/-- Erase the stored priority field of a task, keeping the three fields the
analyses and the simulator actually read. -/
def stripTask (t : Task) : Task := { t with priority := none }

/-- The map `stripTask` lifted to enumerated tasks. -/
def stripPair (p : ℕ × Task) : ℕ × Task := (p.1, stripTask p.2)

/-- The map `stripTask` lifted to task instances. -/
def stripInst (e : Inst) : Inst := { e with task := stripTask e.task }

/-- The maps `stripTask`/`stripInst` lifted to whole simulator states. -/
def stripState (st : SimState) : SimState :=
  ⟨st.active.map stripInst, st.timeline, st.violations,
    st.selected.map (Option.map stripInst), st.readys.map (List.map stripInst)⟩

/-- The priority key ignores the stored priority field. -/
theorem key_stripTask (alg : Alg) (t : Task) : key alg (stripTask t) = key alg t := by
  cases alg <;> rfl

/-- Priority-stripped tasks determine the period. -/
theorem stripTask_period {a b : Task} (h : stripTask a = stripTask b) :
    a.period = b.period := by
  have e := congrArg Task.period h
  exact e

/-- Priority-stripped tasks determine the execution time. -/
theorem stripTask_exec {a b : Task} (h : stripTask a = stripTask b) :
    a.execution_time = b.execution_time := by
  have e := congrArg Task.execution_time h
  exact e

/-- Priority-stripped tasks determine the deadline. -/
theorem stripTask_deadline {a b : Task} (h : stripTask a = stripTask b) :
    a.deadline = b.deadline := by
  have e := congrArg Task.deadline h
  exact e

/-- Interference depends only on the priority-stripped higher-priority
tasks. -/
theorem interference_congr {p₁ p₂ : List Task}
    (h : p₁.map stripTask = p₂.map stripTask) (r : ℤ) :
    interference p₁ r = interference p₂ r := by
  have e : ∀ l : List Task,
      l.map (fun t => ceilq r t.period * t.execution_time) =
        (l.map stripTask).map (fun t => ceilq r t.period * t.execution_time) := by
    intro l
    rw [List.map_map]
    rfl
  rw [interference, interference, e p₁, e p₂, h]

/-- The response-time loop depends only on the priority-stripped
higher-priority tasks. -/
theorem rtaLoop_congr {p₁ p₂ : List Task}
    (h : p₁.map stripTask = p₂.map stripTask) (C D : ℤ) :
    ∀ (fuel : ℕ) (r : ℤ), rtaLoop p₁ C D fuel r = rtaLoop p₂ C D fuel r := by
  intro fuel
  induction fuel with
  | zero => intro r; rfl
  | succ fuel ih =>
    intro r
    rw [rtaLoop, rtaLoop]
    simp only [interference_congr h]
    split_ifs
    · rfl
    · rfl
    · exact ih _

/-- The response-time analysis depends only on the priority-stripped task
list. -/
theorem rtaGo_congr (fuel : ℕ) :
    ∀ (l₁ l₂ p₁ p₂ : List Task) (acc : List (Option ℤ)),
      l₁.map stripTask = l₂.map stripTask →
      p₁.map stripTask = p₂.map stripTask →
      rtaGo fuel p₁ l₁ acc = rtaGo fuel p₂ l₂ acc := by
  intro l₁
  induction l₁ with
  | nil =>
    intro l₂ p₁ p₂ acc h _
    cases l₂ with
    | nil => rfl
    | cons b l' => exact absurd h (by simp)
  | cons t l ih =>
    intro l₂ p₁ p₂ acc h hp
    cases l₂ with
    | nil => exact absurd h (by simp)
    | cons t' l' =>
      simp only [List.map_cons, List.cons.injEq] at h
      obtain ⟨ht, hl⟩ := h
      have hC : t.execution_time = t'.execution_time := stripTask_exec ht
      have hD : t.deadline = t'.deadline := stripTask_deadline ht
      rw [rtaGo, rtaGo, hC, hD, rtaLoop_congr hp]
      cases hres : rtaLoop p₂ t'.execution_time t'.deadline fuel
          t'.execution_time with
      | none => rfl
      | some o =>
        cases o with
        | none => rfl
        | some r =>
          refine ih l' (p₁ ++ [t]) (p₂ ++ [t']) (acc ++ [some r]) hl ?_
          simp [hp, ht]

/-- The utilization sum ignores the stored priority field. -/
theorem utilization_congr {ts₁ ts₂ : List Task}
    (h : ts₁.map stripTask = ts₂.map stripTask) :
    utilization ts₁ = utilization ts₂ := by
  have e : ∀ ts : List Task,
      utilization ts = utilization (ts.map stripTask) := by
    intro ts
    rw [utilization, utilization, List.map_map]
    rfl
  rw [e ts₁, e ts₂, h]

/-- Sorting by period commutes with erasing the priority field. -/
theorem sortByPeriod_strip (ts : List Task) :
    (sortByPeriod ts).map stripTask = sortByPeriod (ts.map stripTask) :=
  List.map_insertionSort (fun a b : Task => a.period ≤ b.period)
    (fun a b : Task => a.period ≤ b.period) stripTask ts
    (fun _ _ _ _ => Iff.rfl)

/-- The single-pass response times ignore the stored priority field. -/
theorem rm1Go_congr :
    ∀ (l₁ l₂ p₁ p₂ : List Task),
      l₁.map stripTask = l₂.map stripTask →
      p₁.map stripTask = p₂.map stripTask →
      rm1Go p₁ l₁ = rm1Go p₂ l₂ := by
  intro l₁
  induction l₁ with
  | nil =>
    intro l₂ p₁ p₂ h _
    cases l₂ with
    | nil => rfl
    | cons b l' => exact absurd h (by simp)
  | cons t l ih =>
    intro l₂ p₁ p₂ h hp
    cases l₂ with
    | nil => exact absurd h (by simp)
    | cons t' l' =>
      simp only [List.map_cons, List.cons.injEq] at h
      obtain ⟨ht, hl⟩ := h
      have hC : t.execution_time = t'.execution_time := stripTask_exec ht
      have hD : t.deadline = t'.deadline := stripTask_deadline ht
      rw [rm1Go, rm1Go, hC, hD, interference_congr hp,
        ih l' (p₁ ++ [t]) (p₂ ++ [t']) hl (by simp [hp, ht])]

/-- The final all-deadlines check of `rate_monotonic_check_1` ignores the
stored priority field. -/
theorem rm1All_congr :
    ∀ (l₁ l₂ : List Task) (rts : List ℤ),
      l₁.map stripTask = l₂.map stripTask →
      (l₁.zip rts).all (fun p => p.2 ≤ p.1.deadline) =
        (l₂.zip rts).all (fun p => p.2 ≤ p.1.deadline) := by
  intro l₁
  induction l₁ with
  | nil =>
    intro l₂ rts h
    cases l₂ with
    | nil => rfl
    | cons b l' => exact absurd h (by simp)
  | cons a l ih =>
    intro l₂ rts h
    cases l₂ with
    | nil => exact absurd h (by simp)
    | cons b l' =>
      simp only [List.map_cons, List.cons.injEq] at h
      cases rts with
      | nil => rfl
      | cons r rs =>
        simp only [List.zip_cons_cons, List.all_cons]
        rw [ih l' rs h.2, stripTask_deadline h.1]

end TaskSched

namespace TaskSched

/-- The release phase commutes with erasing the priority field. -/
theorem release_strip (ts : List (ℕ × Task)) (t : ℕ) :
    release (ts.map stripPair) t = (release ts t).map stripInst := by
  rw [release, release, List.filter_map, List.map_map, List.map_map]
  rfl

/-- Sorting instances commutes with erasing the priority field. -/
theorem sortInsts_strip (alg : Alg) (l : List Inst) :
    sortInsts alg (l.map stripInst) = (sortInsts alg l).map stripInst := by
  refine (List.map_insertionSort
    (fun a b : Inst => key alg a.task ≤ key alg b.task)
    (fun a b : Inst => key alg a.task ≤ key alg b.task) stripInst l ?_).symm
  intro a _ b _
  show key alg a.task ≤ key alg b.task ↔
    key alg (stripTask a.task) ≤ key alg (stripTask b.task)
  rw [key_stripTask, key_stripTask]

/-- Sorting the enumerated tasks commutes with erasing the priority
field. -/
theorem sortTasks_strip (alg : Alg) (l : List (ℕ × Task)) :
    sortTasks alg (l.map stripPair) = (sortTasks alg l).map stripPair := by
  refine (List.map_insertionSort
    (fun a b : ℕ × Task => key alg a.2 ≤ key alg b.2)
    (fun a b : ℕ × Task => key alg a.2 ≤ key alg b.2) stripPair l ?_).symm
  intro a _ b _
  show key alg a.2 ≤ key alg b.2 ↔
    key alg (stripTask a.2) ≤ key alg (stripTask b.2)
  rw [key_stripTask, key_stripTask]

/-- The execute phase commutes with erasing the priority field. -/
theorem execPhase_strip (t : ℕ) (st : SimState) (l : List Inst) :
    stripState (execPhase t st l) = execPhase t (stripState st) (l.map stripInst) := by
  cases l with
  | nil => simp [stripState, execPhase]
  | cons e rest => simp [stripState, execPhase, stripInst]

/-- One simulation step commutes with erasing the priority field. -/
theorem simStep_strip (alg : Alg) (ts : List (ℕ × Task)) (t : ℕ) (st : SimState) :
    stripState (simStep alg ts t st) = simStep alg (ts.map stripPair) t (stripState st) := by
  have h1 : (stripState st).active ++ release (ts.map stripPair) t =
      (st.active ++ release ts t).map stripInst := by
    rw [release_strip, stripState, List.map_append]
  have h2 : ((st.active ++ release ts t).map stripInst).filter
        (fun i => 0 < i.remaining) =
      ((st.active ++ release ts t).filter (fun i => 0 < i.remaining)).map
        stripInst := by
    rw [List.filter_map]
    rfl
  show stripState (execPhase t st (sortInsts alg
      ((st.active ++ release ts t).filter (fun i => 0 < i.remaining)))) =
    execPhase t (stripState st) (sortInsts alg
      (((stripState st).active ++ release (ts.map stripPair) t).filter
        (fun i => 0 < i.remaining)))
  rw [h1, h2, sortInsts_strip, execPhase_strip]

/-- The whole simulation run commutes with erasing the priority field. -/
theorem simRun_strip (alg : Alg) (ts : List (ℕ × Task)) :
    ∀ n, stripState (simRun alg ts n) = simRun alg (ts.map stripPair) n := by
  intro n
  induction n with
  | zero => rfl
  | succ n ih => rw [simRun, simRun, ← ih, simStep_strip]

/-- The hyperperiod depends only on the priority-stripped tasks. -/
theorem hyperperiod_congr {ts₁ ts₂ : List Task}
    (h : ts₁.map stripTask = ts₂.map stripTask) :
    hyperperiod ts₁ = hyperperiod ts₂ := by
  have e : ∀ ts : List Task, hyperperiod ts = hyperperiod (ts.map stripTask) := by
    intro ts
    rw [hyperperiod, hyperperiod, List.foldr_map]
    rfl
  rw [e ts₁, e ts₂, h]

/-- Enumerating commutes with erasing the priority field. -/
theorem enum_strip (ts : List Task) :
    (ts.map stripTask).enum = ts.enum.map stripPair := by
  rw [← List.map_enum]
  rfl

/-- C10: the stored priority field of a `Task` is never read.  Two task
lists that agree on every task's period, execution time and deadline (but
differ arbitrarily in the priority fields) get identical verdicts from
`rate_monotonic_check`, identical results from `response_time_analysis`
and `rate_monotonic_check_1`, and identical `execution_timeline` and
`deadline_violations` from the simulation. -/
theorem claim_C10 (ts₁ ts₂ : List Task) (fuel cycles : ℕ) (alg : Alg)
    (h : ts₁.map stripTask = ts₂.map stripTask) :
    (rate_monotonic_check ts₁ ↔ rate_monotonic_check ts₂) ∧
    response_time_analysis ts₁ fuel = response_time_analysis ts₂ fuel ∧
    rate_monotonic_check_1 ts₁ = rate_monotonic_check_1 ts₂ ∧
    (generate_schedule_data ts₁ cycles alg).timeline =
      (generate_schedule_data ts₂ cycles alg).timeline ∧
    (generate_schedule_data ts₁ cycles alg).violations =
      (generate_schedule_data ts₂ cycles alg).violations := by
  have hlen : ts₁.length = ts₂.length := by
    have e := congrArg List.length h
    simpa using e
  have henum : ts₁.enum.map stripPair = ts₂.enum.map stripPair := by
    rw [← enum_strip, ← enum_strip, h]
  have hsorted : (sortTasks alg ts₁.enum).map stripPair =
      (sortTasks alg ts₂.enum).map stripPair := by
    rw [← sortTasks_strip, ← sortTasks_strip, henum]
  have hrange : time_range ts₁ cycles = time_range ts₂ cycles := by
    rw [time_range, time_range, hyperperiod_congr h]
  have hsim : ∀ n, stripState (simRun alg (sortTasks alg ts₁.enum) n) =
      stripState (simRun alg (sortTasks alg ts₂.enum) n) := by
    intro n
    rw [simRun_strip, simRun_strip, hsorted]
  refine ⟨?_, ?_, ?_, ?_, ?_⟩
  · rw [rate_monotonic_check, rate_monotonic_check, utilization_congr h, hlen]
  · exact rtaGo_congr fuel ts₁ ts₂ [] [] [] h rfl
  · have hs : (sortByPeriod ts₁).map stripTask = (sortByPeriod ts₂).map stripTask := by
      rw [sortByPeriod_strip, sortByPeriod_strip, h]
    rw [rate_monotonic_check_1, rate_monotonic_check_1,
      rm1Go_congr (sortByPeriod ts₁) (sortByPeriod ts₂) [] [] hs rfl,
      rm1All_congr (sortByPeriod ts₁) (sortByPeriod ts₂) _ hs]
  · have e := congrArg SimState.timeline (hsim (time_range ts₁ cycles))
    rw [generate_schedule_data, generate_schedule_data, ← hrange]
    exact e
  · have e := congrArg SimState.violations (hsim (time_range ts₁ cycles))
    rw [generate_schedule_data, generate_schedule_data, ← hrange]
    exact e

/-- Witness for C10: the same one-task workload with two different stored
priorities. -/
theorem claim_C10_witness :
    (rate_monotonic_check [Task.init 2 1 none (some 5)] ↔
      rate_monotonic_check [Task.init 2 1 none none]) ∧
    response_time_analysis [Task.init 2 1 none (some 5)] 10 =
      response_time_analysis [Task.init 2 1 none none] 10 ∧
    rate_monotonic_check_1 [Task.init 2 1 none (some 5)] =
      rate_monotonic_check_1 [Task.init 2 1 none none] ∧
    (generate_schedule_data [Task.init 2 1 none (some 5)] 1 .RM).timeline =
      (generate_schedule_data [Task.init 2 1 none none] 1 .RM).timeline ∧
    (generate_schedule_data [Task.init 2 1 none (some 5)] 1 .RM).violations =
      (generate_schedule_data [Task.init 2 1 none none] 1 .RM).violations :=
  claim_C10 [Task.init 2 1 none (some 5)] [Task.init 2 1 none none] 10 1 .RM
    (by decide)

end TaskSched
